import Mathlib

/-!
Shallow embedding of `src/jhash.c` (Jenkins lookup3 hash, Linux-kernel
variant).  32-bit unsigned integers are modelled as natural numbers taken
modulo `2^32`; every arithmetic operation of the C source is mirrored by an
explicit mod-`2^32` operation.  The key buffer is modelled as a byte memory
`k : Nat → Nat`, read through `byteAt` which truncates to a byte (the C
pointer has type `const u8 *`).  The unaligned 32-bit read is pinned to
little-endian byte composition, the convention the specification fixes for
the platform-dependent `__get_unaligned_cpu32`.
-/

/-- `2^32`, the modulus of all 32-bit arithmetic in the source. -/
def M : Nat := 4294967296

/-- 32-bit addition (`+` on `u32`). -/
def add32 (x y : Nat) : Nat := (x + y) % M

/-- 32-bit subtraction (`-` on `u32`): wraparound modulo `2^32`. -/
def sub32 (x y : Nat) : Nat := (x + (M - y % M)) % M

/-- 32-bit exclusive or (`^` on `u32`). -/
def xor32 (x y : Nat) : Nat := (x ^^^ y) % M

/-- `rol32(word, shift)` from the source:
`(word << shift) | (word >> ((-shift) & 31))` on `u32`. -/
def rol32 (word shift : Nat) : Nat :=
  ((word <<< shift) % M) ||| ((word % M) >>> ((M - shift % M) % M &&& 31))

/-- Read one byte of the key buffer: a `const u8 *` dereference. -/
def byteAt (k : Nat → Nat) (i : Nat) : Nat := k i % 256

/-- `__get_unaligned_cpu32(k + off)`, pinned to little-endian byte order:
`b0 | b1<<8 | b2<<16 | b3<<24`. -/
def get_unaligned_cpu32 (k : Nat → Nat) (off : Nat) : Nat :=
  byteAt k (off + 0) ||| (byteAt k (off + 1) <<< 8) |||
    (byteAt k (off + 2) <<< 16) ||| (byteAt k (off + 3) <<< 24)

/-- The `__jhash_mix(a, b, c)` macro: mix 3 32-bit values reversibly. -/
def jhash_mix (s : Nat × Nat × Nat) : Nat × Nat × Nat :=
  let a := s.1
  let b := s.2.1
  let c := s.2.2
  let a := sub32 a c; let a := xor32 a (rol32 c 4); let c := add32 c b
  let b := sub32 b a; let b := xor32 b (rol32 a 6); let a := add32 a c
  let c := sub32 c b; let c := xor32 c (rol32 b 8); let b := add32 b a
  let a := sub32 a c; let a := xor32 a (rol32 c 16); let c := add32 c b
  let b := sub32 b a; let b := xor32 b (rol32 a 19); let a := add32 a c
  let c := sub32 c b; let c := xor32 c (rol32 b 4); let b := add32 b a
  (a, b, c)

/-- The `__jhash_final(a, b, c)` macro: final mixing of 3 32-bit values
into `c`. -/
def jhash_final (s : Nat × Nat × Nat) : Nat × Nat × Nat :=
  let a := s.1
  let b := s.2.1
  let c := s.2.2
  let c := xor32 c b; let c := sub32 c (rol32 b 14)
  let a := xor32 a c; let a := sub32 a (rol32 c 11)
  let b := xor32 b a; let b := sub32 b (rol32 a 25)
  let c := xor32 c b; let c := sub32 c (rol32 b 16)
  let a := xor32 a c; let a := sub32 a (rol32 c 4)
  let b := xor32 b a; let b := sub32 b (rol32 a 14)
  let c := xor32 c b; let c := sub32 c (rol32 b 24)
  (a, b, c)

/-- `JHASH_INITVAL`: the arbitrary initial parameter `0xdeadbeef`. -/
def JHASH_INITVAL : Nat := 0xdeadbeef

/-- The bulk loop `while (length > 12) { ... }` of `jhash`: absorb the next
12 bytes as three 32-bit words, mix, advance the cursor by 12 bytes.
Returns the loop-exit values `(length, off, a, b, c)`. -/
def jhashLoop (k : Nat → Nat) (length off a b c : Nat) :
    Nat × Nat × Nat × Nat × Nat :=
  if h : 12 < length then
    let a := add32 a (get_unaligned_cpu32 k off)
    let b := add32 b (get_unaligned_cpu32 k (off + 4))
    let c := add32 c (get_unaligned_cpu32 k (off + 8))
    let s := jhash_mix (a, b, c)
    jhashLoop k (length - 12) (off + 12) s.1 s.2.1 s.2.2
  else (length, off, a, b, c)
termination_by length
decreasing_by omega

/-- The tail `switch (length)` of `jhash` with its downward fallthrough:
each `case n` for `n ≥ j` adds byte `j-1`, `case 1` then runs
`__jhash_final`, and `case 0` adds nothing.  A `length` above 12 matches no
case (the loop guarantees it never happens) and leaves `c` unchanged. -/
def jhashTail (k : Nat → Nat) (off len a b c : Nat) : Nat :=
  if len = 0 ∨ 12 < len then c
  else
    let c := if 12 ≤ len then add32 c (byteAt k (off + 11) <<< 24) else c
    let c := if 11 ≤ len then add32 c (byteAt k (off + 10) <<< 16) else c
    let c := if 10 ≤ len then add32 c (byteAt k (off + 9) <<< 8) else c
    let c := if 9 ≤ len then add32 c (byteAt k (off + 8)) else c
    let b := if 8 ≤ len then add32 b (byteAt k (off + 7) <<< 24) else b
    let b := if 7 ≤ len then add32 b (byteAt k (off + 6) <<< 16) else b
    let b := if 6 ≤ len then add32 b (byteAt k (off + 5) <<< 8) else b
    let b := if 5 ≤ len then add32 b (byteAt k (off + 4)) else b
    let a := if 4 ≤ len then add32 a (byteAt k (off + 3) <<< 24) else a
    let a := if 3 ≤ len then add32 a (byteAt k (off + 2) <<< 16) else a
    let a := if 2 ≤ len then add32 a (byteAt k (off + 1) <<< 8) else a
    let a := add32 a (byteAt k (off + 0))
    (jhash_final (a, b, c)).2.2

/-- `u32 jhash(const void *key, u32 length, u32 initval)`: set up the
internal state, run the bulk loop, then the tail switch, and return `c`. -/
def jhash (k : Nat → Nat) (length initval : Nat) : Nat :=
  let iv := (JHASH_INITVAL + length + initval) % M
  let s := jhashLoop k length 0 iv iv iv
  jhashTail k s.2.1 s.1 s.2.2.1 s.2.2.2.1 s.2.2.2.2

/-!
Specification-side definitions.  These re-state, in the form the
specification describes them (round lists with explicit rotation amounts, a
loop over byte indices `0..L-1`), the transformations that the source
writes as unrolled macros and a fallthrough switch.  The theorems below
relate them to the source-side definitions above.
-/

/-- One mixing round of the spec's 6-round description: on the cycled state
`(x, y, z)` perform subtract, rotate-XOR with rotation `r`, add, and cycle
the roles. -/
def mixStep (s : Nat × Nat × Nat) (r : Nat) : Nat × Nat × Nat :=
  (s.2.1, add32 s.2.2 s.2.1, xor32 (sub32 s.1 s.2.2) (rol32 s.2.2 r))

/-- The spec's 3-word mixing transform: 6 rounds with the fixed rotation
amounts `{4, 6, 8, 16, 19, 4}`, cycling through `a`, `b`, `c`. -/
def mixRounds (s : Nat × Nat × Nat) : Nat × Nat × Nat :=
  ([4, 6, 8, 16, 19, 4] : List Nat).foldl mixStep s

/-- Inverse of one mixing round: undo add, rotate-XOR, subtract. -/
def mixStepInv (s : Nat × Nat × Nat) (r : Nat) : Nat × Nat × Nat :=
  let z := sub32 s.2.1 s.1
  (add32 (xor32 s.2.2 (rol32 z r)) z, s.1, z)

/-- Explicit inverse of `jhash_mix`: the inverse rounds in reverse order. -/
def jhash_mix_inv (s : Nat × Nat × Nat) : Nat × Nat × Nat :=
  ([4, 19, 16, 8, 6, 4] : List Nat).foldl mixStepInv s

/-- One step of the spec's 7-step final mix: on the cycled state
`(p, q, t)` perform XOR then subtract-rotate with rotation `r`, and cycle
the roles. -/
def finalStep (s : Nat × Nat × Nat) (r : Nat) : Nat × Nat × Nat :=
  (s.2.1, sub32 (xor32 s.2.2 s.2.1) (rol32 s.2.1 r), s.1)

/-- The spec's final mix: 7 steps with the fixed rotation amounts
`{14, 11, 25, 16, 4, 14, 24}`, strictly in that order.  The final hash
value (register `c`) is the `.2.1` component of the result. -/
def finalRounds (s : Nat × Nat × Nat) : Nat × Nat × Nat :=
  ([14, 11, 25, 16, 4, 14, 24] : List Nat).foldl finalStep s

/-- Absorb byte `i` of the remainder into the state, using the fixed
byte-to-word/shift mapping: byte `i` goes to word `i / 4` (0 is `a`, 1 is
`b`, 2 is `c`) shifted left by `8 * (i % 4)` bits. -/
def absorbByte (k : Nat → Nat) (off : Nat) (s : Nat × Nat × Nat) (i : Nat) :
    Nat × Nat × Nat :=
  let v := byteAt k (off + i) <<< (8 * (i % 4))
  if i < 4 then (add32 s.1 v, s.2.1, s.2.2)
  else if i < 8 then (s.1, add32 s.2.1 v, s.2.2)
  else (s.1, s.2.1, add32 s.2.2 v)

/-- The spec's tail absorption: add exactly the remainder bytes
`0 .. L-1` into the registers, as a loop over ascending byte index. -/
def tailAbsorb (k : Nat → Nat) (off : Nat) :
    Nat → (Nat × Nat × Nat) → Nat × Nat × Nat
  | 0, s => s
  | n + 1, s => absorbByte k off (tailAbsorb k off n s) n

/-- A state triple of 32-bit values. -/
def bounded32 (s : Nat × Nat × Nat) : Prop :=
  s.1 < M ∧ s.2.1 < M ∧ s.2.2 < M

/-!  Arithmetic helper lemmas.  -/

lemma M_pos : 0 < M := by norm_num [M]

lemma M_eq_pow : M = 2 ^ 32 := by norm_num [M]

lemma add32_lt (x y : Nat) : add32 x y < M := Nat.mod_lt _ M_pos

lemma sub32_lt (x y : Nat) : sub32 x y < M := Nat.mod_lt _ M_pos

lemma xor32_lt (x y : Nat) : xor32 x y < M := Nat.mod_lt _ M_pos

lemma rol32_lt (w s : Nat) : rol32 w s < M := by
  have h1 : (w <<< s) % M < M := Nat.mod_lt _ M_pos
  have h2 : (w % M) >>> ((M - s % M) % M &&& 31) ≤ w % M := by
    rw [Nat.shiftRight_eq_div_pow]
    exact Nat.div_le_self _ _
  have h3 : w % M < M := Nat.mod_lt _ M_pos
  rw [rol32, M_eq_pow]
  exact Nat.or_lt_two_pow (M_eq_pow ▸ h1) (M_eq_pow ▸ (Nat.lt_of_le_of_lt h2 h3))

lemma add32_cancel_right {x y : Nat} (hx : x < M) :
    sub32 (add32 x y) y = x := by
  unfold add32 sub32 M at *
  omega

lemma sub32_cancel_right {x y : Nat} (hx : x < M) :
    add32 (sub32 x y) y = x := by
  unfold add32 sub32 M at *
  omega

lemma xor32_cancel_right {x y : Nat} (hx : x < M) (hy : y < M) :
    xor32 (xor32 x y) y = x := by
  have h : x ^^^ y < M := M_eq_pow ▸ Nat.xor_lt_two_pow (M_eq_pow ▸ hx) (M_eq_pow ▸ hy)
  rw [xor32, xor32, Nat.mod_eq_of_lt h, Nat.xor_assoc, Nat.xor_self, Nat.xor_zero,
    Nat.mod_eq_of_lt hx]

/-!  Structural lemmas relating source-side and spec-side definitions.  -/

lemma jhash_mix_eq_mixRounds (s : Nat × Nat × Nat) : jhash_mix s = mixRounds s := rfl

lemma jhash_final_eq_finalRounds (s : Nat × Nat × Nat) :
    jhash_final s = ((finalRounds s).2.2, (finalRounds s).1, (finalRounds s).2.1) := rfl

lemma mixStep_bounded {s : Nat × Nat × Nat} (h : bounded32 s) (r : Nat) :
    bounded32 (mixStep s r) :=
  ⟨h.2.1, add32_lt _ _, xor32_lt _ _⟩

lemma mixStepInv_bounded {s : Nat × Nat × Nat} (h : bounded32 s) (r : Nat) :
    bounded32 (mixStepInv s r) :=
  ⟨add32_lt _ _, h.1, sub32_lt _ _⟩

lemma mixStepInv_mixStep (r : Nat) {s : Nat × Nat × Nat} (h : bounded32 s) :
    mixStepInv (mixStep s r) r = s := by
  obtain ⟨x, y, z⟩ := s
  obtain ⟨h1, h2, h3⟩ := h
  simp only [mixStep, mixStepInv]
  rw [add32_cancel_right h3, xor32_cancel_right (sub32_lt _ _) (rol32_lt _ _),
    sub32_cancel_right h1]

lemma mixStep_mixStepInv (r : Nat) {s : Nat × Nat × Nat} (h : bounded32 s) :
    mixStep (mixStepInv s r) r = s := by
  obtain ⟨p, q, t⟩ := s
  obtain ⟨h1, h2, h3⟩ := h
  simp only [mixStep, mixStepInv]
  rw [sub32_cancel_right h2, add32_cancel_right (xor32_lt _ _),
    xor32_cancel_right h3 (rol32_lt _ _)]

lemma jhash_mix_inv_jhash_mix {s : Nat × Nat × Nat} (h : bounded32 s) :
    jhash_mix_inv (jhash_mix s) = s := by
  have b0 : bounded32 s := h
  have b1 := mixStep_bounded b0 4
  have b2 := mixStep_bounded b1 6
  have b3 := mixStep_bounded b2 8
  have b4 := mixStep_bounded b3 16
  have b5 := mixStep_bounded b4 19
  show mixStepInv (mixStepInv (mixStepInv (mixStepInv (mixStepInv (mixStepInv
      (mixStep (mixStep (mixStep (mixStep (mixStep (mixStep s 4) 6) 8) 16) 19) 4)
      4) 19) 16) 8) 6) 4 = s
  rw [mixStepInv_mixStep 4 b5, mixStepInv_mixStep 19 b4, mixStepInv_mixStep 16 b3,
    mixStepInv_mixStep 8 b2, mixStepInv_mixStep 6 b1, mixStepInv_mixStep 4 b0]

lemma jhash_mix_jhash_mix_inv {s : Nat × Nat × Nat} (h : bounded32 s) :
    jhash_mix (jhash_mix_inv s) = s := by
  have b0 : bounded32 s := h
  have b1 := mixStepInv_bounded b0 4
  have b2 := mixStepInv_bounded b1 19
  have b3 := mixStepInv_bounded b2 16
  have b4 := mixStepInv_bounded b3 8
  have b5 := mixStepInv_bounded b4 6
  show mixStep (mixStep (mixStep (mixStep (mixStep (mixStep
      (mixStepInv (mixStepInv (mixStepInv (mixStepInv (mixStepInv (mixStepInv s 4) 19) 16) 8) 6) 4)
      4) 6) 8) 16) 19) 4 = s
  rw [mixStep_mixStepInv 4 b5, mixStep_mixStepInv 6 b4, mixStep_mixStepInv 8 b3,
    mixStep_mixStepInv 16 b2, mixStep_mixStepInv 19 b1, mixStep_mixStepInv 4 b0]

lemma jhash_final_c_congr {t u : Nat × Nat × Nat} (h : t = u) :
    (jhash_final t).2.2 = (jhash_final u).2.2 := by rw [h]

/-- The fallthrough switch equals the spec's ascending byte-absorption loop
followed by the final mix (absent when the remainder is empty). -/
lemma jhashTail_eq_absorb (k : Nat → Nat) (off len a b c : Nat) (hlen : len ≤ 12) :
    jhashTail k off len a b c =
      if len = 0 then c
      else (jhash_final (tailAbsorb k off len (a, b, c))).2.2 := by
  interval_cases len <;>
    · simp only [jhashTail, tailAbsorb, absorbByte]
      norm_num
      try
        apply jhash_final_c_congr
        simp only [Prod.mk.injEq, add32, M, Nat.mod_add_mod, and_true, true_and]
        omega

lemma tailAbsorb_congr {k k' : Nat → Nat} (off : Nat) :
    ∀ L s, (∀ i, i < L → k (off + i) = k' (off + i)) →
      tailAbsorb k off L s = tailAbsorb k' off L s := by
  intro L
  induction L with
  | zero => intro s h; rfl
  | succ n ih =>
    intro s h
    simp only [tailAbsorb]
    rw [ih s (fun i hi => h i (by omega))]
    simp only [absorbByte, byteAt, h n (by omega)]

/-- The loop-exit remainder depends only on the total length: it is `0` for
the empty key and otherwise `(length - 1) % 12 + 1`, always in `1..12`. -/
lemma jhashLoop_fst (k : Nat → Nat) (length : Nat) :
    ∀ off a b c, (jhashLoop k length off a b c).1 =
      if length = 0 then 0 else (length - 1) % 12 + 1 := by
  induction length using Nat.strong_induction_on with
  | _ length ih =>
    intro off a b c
    rw [jhashLoop]
    split
    · next h =>
      rw [ih (length - 12) (by omega)]
      split <;> split <;> omega
    · next h =>
      split <;> omega

/-- The loop advances the cursor in lockstep with the consumed length:
exit offset plus exit length equals entry offset plus entry length. -/
lemma jhashLoop_off (k : Nat → Nat) (length : Nat) :
    ∀ off a b c, (jhashLoop k length off a b c).2.1 + (jhashLoop k length off a b c).1 =
      off + length := by
  induction length using Nat.strong_induction_on with
  | _ length ih =>
    intro off a b c
    rw [jhashLoop]
    split
    · next h =>
      rw [ih (length - 12) (by omega)]
      omega
    · next h => simp

lemma jhashLoop_bounds (k : Nat → Nat) (length : Nat) :
    ∀ off a b c, a < M → b < M → c < M →
      (jhashLoop k length off a b c).2.2.1 < M ∧
      (jhashLoop k length off a b c).2.2.2.1 < M ∧
      (jhashLoop k length off a b c).2.2.2.2 < M := by
  induction length using Nat.strong_induction_on with
  | _ length ih =>
    intro off a b c ha hb hc
    rw [jhashLoop]
    split
    · next h =>
      exact ih (length - 12) (by omega) _ _ _ _
        (add32_lt _ _) (add32_lt _ _) (xor32_lt _ _)
    · next h => exact ⟨ha, hb, hc⟩

lemma get_unaligned_congr {k1 k2 : Nat → Nat} (off : Nat)
    (h : ∀ j, j < 4 → k1 (off + j) = k2 (off + j)) :
    get_unaligned_cpu32 k1 off = get_unaligned_cpu32 k2 off := by
  simp only [get_unaligned_cpu32, byteAt,
    h 0 (by omega), h 1 (by omega), h 2 (by omega), h 3 (by omega)]

/-- The bulk loop reads only bytes `off .. off + length - 1`. -/
lemma jhashLoop_congr {k1 k2 : Nat → Nat} (length : Nat) :
    ∀ off a b c, (∀ i, i < length → k1 (off + i) = k2 (off + i)) →
      jhashLoop k1 length off a b c = jhashLoop k2 length off a b c := by
  induction length using Nat.strong_induction_on with
  | _ length ih =>
    intro off a b c h
    conv_lhs => rw [jhashLoop]
    conv_rhs => rw [jhashLoop]
    split
    · next hl =>
      rw [get_unaligned_congr off (fun j hj => h j (by omega)),
        get_unaligned_congr (off + 4)
          (fun j hj => by have := h (4 + j) (by omega); simpa [Nat.add_assoc] using this),
        get_unaligned_congr (off + 8)
          (fun j hj => by have := h (8 + j) (by omega); simpa [Nat.add_assoc] using this)]
      exact ih (length - 12) (by omega) (off + 12) _ _ _
        (fun i hi => by have := h (12 + i) (by omega); simpa [Nat.add_assoc] using this)
    · rfl

/-- The tail switch reads only bytes `off .. off + len - 1`. -/
lemma jhashTail_congr {k1 k2 : Nat → Nat} (off len a b c : Nat)
    (h : ∀ i, i < len → k1 (off + i) = k2 (off + i)) :
    jhashTail k1 off len a b c = jhashTail k2 off len a b c := by
  by_cases hlen : len ≤ 12
  · interval_cases len
    · simp [jhashTail]
    · simp [jhashTail, byteAt, show k1 off = k2 off by simpa using h 0 (by omega)]
    · simp [jhashTail, byteAt, show k1 off = k2 off by simpa using h 0 (by omega),
        h 1 (by omega)]
    · simp [jhashTail, byteAt, show k1 off = k2 off by simpa using h 0 (by omega),
        h 1 (by omega), h 2 (by omega)]
    · simp [jhashTail, byteAt, show k1 off = k2 off by simpa using h 0 (by omega),
        h 1 (by omega), h 2 (by omega), h 3 (by omega)]
    · simp [jhashTail, byteAt, show k1 off = k2 off by simpa using h 0 (by omega),
        h 1 (by omega), h 2 (by omega), h 3 (by omega), h 4 (by omega)]
    · simp [jhashTail, byteAt, show k1 off = k2 off by simpa using h 0 (by omega),
        h 1 (by omega), h 2 (by omega), h 3 (by omega), h 4 (by omega), h 5 (by omega)]
    · simp [jhashTail, byteAt, show k1 off = k2 off by simpa using h 0 (by omega),
        h 1 (by omega), h 2 (by omega), h 3 (by omega), h 4 (by omega), h 5 (by omega),
        h 6 (by omega)]
    · simp [jhashTail, byteAt, show k1 off = k2 off by simpa using h 0 (by omega),
        h 1 (by omega), h 2 (by omega), h 3 (by omega), h 4 (by omega), h 5 (by omega),
        h 6 (by omega), h 7 (by omega)]
    · simp [jhashTail, byteAt, show k1 off = k2 off by simpa using h 0 (by omega),
        h 1 (by omega), h 2 (by omega), h 3 (by omega), h 4 (by omega), h 5 (by omega),
        h 6 (by omega), h 7 (by omega), h 8 (by omega)]
    · simp [jhashTail, byteAt, show k1 off = k2 off by simpa using h 0 (by omega),
        h 1 (by omega), h 2 (by omega), h 3 (by omega), h 4 (by omega), h 5 (by omega),
        h 6 (by omega), h 7 (by omega), h 8 (by omega), h 9 (by omega)]
    · simp [jhashTail, byteAt, show k1 off = k2 off by simpa using h 0 (by omega),
        h 1 (by omega), h 2 (by omega), h 3 (by omega), h 4 (by omega), h 5 (by omega),
        h 6 (by omega), h 7 (by omega), h 8 (by omega), h 9 (by omega), h 10 (by omega)]
    · simp [jhashTail, byteAt, show k1 off = k2 off by simpa using h 0 (by omega),
        h 1 (by omega), h 2 (by omega), h 3 (by omega), h 4 (by omega), h 5 (by omega),
        h 6 (by omega), h 7 (by omega), h 8 (by omega), h 9 (by omega), h 10 (by omega),
        h 11 (by omega)]
  · have hc : len = 0 ∨ 12 < len := by omega
    rw [jhashTail, jhashTail, if_pos hc, if_pos hc]

lemma jhashTail_lt (k : Nat → Nat) (off len a b c : Nat) (hc : c < M) :
    jhashTail k off len a b c < M := by
  rw [jhashTail]
  split
  · exact hc
  · exact sub32_lt _ _

lemma jhash_lt (k : Nat → Nat) (length initval : Nat) :
    jhash k length initval < M := by
  have h := jhashLoop_bounds k length 0
    ((JHASH_INITVAL + length + initval) % M) ((JHASH_INITVAL + length + initval) % M)
    ((JHASH_INITVAL + length + initval) % M)
    (Nat.mod_lt _ M_pos) (Nat.mod_lt _ M_pos) (Nat.mod_lt _ M_pos)
  exact jhashTail_lt _ _ _ _ _ _ h.2.2

/-!  Claim theorems.  -/

/-- Claim C1: for every remainder length `L` with `0 ≤ L ≤ 12`, the tail
absorption adds exactly the remainder bytes `0..L-1` into the registers,
using the fixed byte-to-word/shift mapping (byte `i` goes to word `i / 4`,
shifted left by `8 * (i % 4)` bits): the fallthrough switch equals the
ascending absorption of all byte positions strictly below `L` followed by
the final mix, and — because the right-hand side may read the bytes from
any buffer `k'` that agrees with `k` strictly below `L` — no byte at
position `≥ L` is added. -/
theorem jhashTail_absorbs_exactly_first_L_bytes (k k' : Nat → Nat)
    (off L a b c : Nat) (hL : L ≤ 12)
    (hagree : ∀ i, i < L → k (off + i) = k' (off + i)) :
    jhashTail k off L a b c =
      if L = 0 then c else (jhash_final (tailAbsorb k' off L (a, b, c))).2.2 := by
  rw [jhashTail_eq_absorb k off L a b c hL]
  by_cases h0 : L = 0
  · simp [h0]
  · simp only [if_neg h0]
    rw [tailAbsorb_congr off L (a, b, c) hagree]

/-- Witness for C1: remainder length 5, with a second buffer that differs
from the first at every index from 5 on. -/
theorem jhashTail_absorbs_exactly_first_L_bytes_witness :
    jhashTail (fun i => i) 0 5 1 2 3 =
      if (5 : Nat) = 0 then 3
      else (jhash_final (tailAbsorb (fun i => if i < 5 then i else 999) 0 5 (1, 2, 3))).2.2 :=
  jhashTail_absorbs_exactly_first_L_bytes (fun i => i) (fun i => if i < 5 then i else 999)
    0 5 1 2 3 (by norm_num) (by decide)

/-- Claim C2: while more than 12 bytes remain, one iteration of the bulk
loop reads three little-endian 32-bit words from the next 12 bytes, adds
them into `a`, `b`, `c` respectively, applies the 6-round mixing transform
with the fixed rotation amounts `{4, 6, 8, 16, 19, 4}`, and advances the
input cursor by exactly 12 bytes. -/
theorem jhashLoop_step_mixes_and_advances (k : Nat → Nat)
    (length off a b c : Nat) (h : 12 < length) :
    jhashLoop k length off a b c =
      jhashLoop k (length - 12) (off + 12)
        (mixRounds (add32 a (get_unaligned_cpu32 k off),
          add32 b (get_unaligned_cpu32 k (off + 4)),
          add32 c (get_unaligned_cpu32 k (off + 8)))).1
        (mixRounds (add32 a (get_unaligned_cpu32 k off),
          add32 b (get_unaligned_cpu32 k (off + 4)),
          add32 c (get_unaligned_cpu32 k (off + 8)))).2.1
        (mixRounds (add32 a (get_unaligned_cpu32 k off),
          add32 b (get_unaligned_cpu32 k (off + 4)),
          add32 c (get_unaligned_cpu32 k (off + 8)))).2.2 := by
  conv_lhs => rw [jhashLoop]
  rw [dif_pos h]
  rfl

/-- Witness for C2 at length 13. -/
theorem jhashLoop_step_mixes_and_advances_witness :
    jhashLoop (fun i => i) 13 0 1 2 3 =
      jhashLoop (fun i => i) (13 - 12) (0 + 12)
        (mixRounds (add32 1 (get_unaligned_cpu32 (fun i => i) 0),
          add32 2 (get_unaligned_cpu32 (fun i => i) (0 + 4)),
          add32 3 (get_unaligned_cpu32 (fun i => i) (0 + 8)))).1
        (mixRounds (add32 1 (get_unaligned_cpu32 (fun i => i) 0),
          add32 2 (get_unaligned_cpu32 (fun i => i) (0 + 4)),
          add32 3 (get_unaligned_cpu32 (fun i => i) (0 + 8)))).2.1
        (mixRounds (add32 1 (get_unaligned_cpu32 (fun i => i) 0),
          add32 2 (get_unaligned_cpu32 (fun i => i) (0 + 4)),
          add32 3 (get_unaligned_cpu32 (fun i => i) (0 + 8)))).2.2 :=
  jhashLoop_step_mixes_and_advances (fun i => i) 13 0 1 2 3 (by norm_num)

/-- Counterexample to C3 as stated: the total key length 12 is a multiple
of 12, yet the remainder after the bulk loop is 12 and not 0 — the loop
only runs on strictly more than 12 bytes, so a nonzero multiple of 12
leaves a full 12-byte remainder (and the final mix does run). -/
theorem remainder_nonzero_at_key_length_twelve :
    12 % 12 = 0 ∧ ¬ ((jhashLoop (fun i => i) 12 0 1 2 3).1 = 0) := by
  constructor
  · norm_num
  · simp [jhashLoop]

/-- Claim C3 (amended): the remainder after the bulk loop is always at most
12; it is 0 exactly when the total key length is 0 (the empty key) — for a
nonzero multiple of 12 it is 12, not 0; when it is 0 the tail returns `c`
unchanged (the final mix is skipped), and for a remainder `L` in `1..12`
the tail applies the final mix to the absorbed state. -/
theorem final_mix_skipped_iff_remainder_zero (k : Nat → Nat)
    (length off L a b c : Nat) (h1 : 1 ≤ L) (h2 : L ≤ 12) :
    (jhashLoop k length off a b c).1 ≤ 12
    ∧ ((jhashLoop k length off a b c).1 = 0 ↔ length = 0)
    ∧ jhashTail k off 0 a b c = c
    ∧ jhashTail k off L a b c = (jhash_final (tailAbsorb k off L (a, b, c))).2.2 := by
  refine ⟨?_, ?_, ?_, ?_⟩
  · rw [jhashLoop_fst]
    split <;> omega
  · rw [jhashLoop_fst]
    constructor
    · intro hz
      split at hz <;> omega
    · intro hz
      simp [hz]
  · rw [jhashTail]
    simp
  · rw [jhashTail_eq_absorb k off L a b c h2, if_neg (by omega)]

/-- Witness for C3 (amended) at total length 24 and remainder 5. -/
theorem final_mix_skipped_iff_remainder_zero_witness :
    (jhashLoop (fun i => i) 24 0 1 2 3).1 ≤ 12
    ∧ ((jhashLoop (fun i => i) 24 0 1 2 3).1 = 0 ↔ (24 : Nat) = 0)
    ∧ jhashTail (fun i => i) 0 0 1 2 3 = 3
    ∧ jhashTail (fun i => i) 0 5 1 2 3 =
        (jhash_final (tailAbsorb (fun i => i) 0 5 (1, 2, 3))).2.2 :=
  final_mix_skipped_iff_remainder_zero (fun i => i) 24 0 5 1 2 3 (by norm_num) (by norm_num)

/-- Claim C4: the final mix is exactly 7 subtract/rotate-XOR/add steps with
the fixed rotation amounts `{14, 11, 25, 16, 4, 14, 24}` executed strictly
in that order (the 7-step fold `finalRounds`), and the value the tail
returns as the hash is the resulting `c` register — the `.2.1` component
of the fold. -/
theorem jhash_final_seven_steps (s : Nat × Nat × Nat) (k : Nat → Nat)
    (off L a b c : Nat) (h1 : 1 ≤ L) (h2 : L ≤ 12) :
    jhash_final s = ((finalRounds s).2.2, (finalRounds s).1, (finalRounds s).2.1)
    ∧ jhashTail k off L a b c = (finalRounds (tailAbsorb k off L (a, b, c))).2.1 := by
  refine ⟨jhash_final_eq_finalRounds s, ?_⟩
  rw [jhashTail_eq_absorb k off L a b c h2, if_neg (by omega)]
  rw [jhash_final_eq_finalRounds]

/-- Witness for C4 at state `(1, 2, 3)` and remainder length 1. -/
theorem jhash_final_seven_steps_witness :
    jhash_final (1, 2, 3) =
      ((finalRounds (1, 2, 3)).2.2, (finalRounds (1, 2, 3)).1, (finalRounds (1, 2, 3)).2.1)
    ∧ jhashTail (fun i => i) 0 1 4 5 6 =
        (finalRounds (tailAbsorb (fun i => i) 0 1 (4, 5, 6))).2.1 :=
  jhash_final_seven_steps (1, 2, 3) (fun i => i) 0 1 4 5 6 (by norm_num) (by norm_num)

/-- Claim C5: `jhash` initializes all three working registers identically
to `(0xdeadbeef + length + initval) mod 2^32` and pipes them through the
bulk loop and the tail, and its result is a 32-bit value — all arithmetic
is performed modulo `2^32`. -/
theorem jhash_init_and_mod32 (k : Nat → Nat) (length initval : Nat) :
    jhash k length initval =
      (let iv := (0xdeadbeef + length + initval) % M
       let s := jhashLoop k length 0 iv iv iv
       jhashTail k s.2.1 s.1 s.2.2.1 s.2.2.2.1 s.2.2.2.2)
    ∧ jhash k length initval < M :=
  ⟨rfl, jhash_lt k length initval⟩

/-- Claim C6: hashing the empty key runs no loop iteration and no final
mix: the result is exactly `(0xdeadbeef + seed) mod 2^32`, for every key
buffer, and with seed 0 it is the fixed constant `0xdeadbeef`. -/
theorem jhash_empty_key (k : Nat → Nat) (s : Nat) :
    jhash k 0 s = (0xdeadbeef + s) % M ∧ jhash k 0 0 = 0xdeadbeef := by
  constructor
  · simp [jhash, jhashLoop, jhashTail, JHASH_INITVAL]
  · simp [jhash, jhashLoop, jhashTail, JHASH_INITVAL, M]

/-- Claim C7: on a key of length exactly 12 the bulk loop (condition
strictly greater than 12) does not run at all — it returns its input state
unchanged — and the hash is computed entirely by the remainder/final-mix
path on all 12 bytes. -/
theorem jhash_length_twelve_uses_tail_only (k : Nat → Nat) (s off a b c : Nat) :
    jhashLoop k 12 off a b c = (12, off, a, b, c)
    ∧ jhash k 12 s = jhashTail k 0 12 ((0xdeadbeef + 12 + s) % M)
        ((0xdeadbeef + 12 + s) % M) ((0xdeadbeef + 12 + s) % M) := by
  constructor
  · rw [jhashLoop]
    simp
  · rw [jhash]
    rw [jhashLoop]
    norm_num [JHASH_INITVAL]

/-- Claim C8: `jhash` is pure, deterministic and total: evaluations on
extensionally equal key buffers with the same length and seed give the
identical result, and the result is always a defined 32-bit value.  (The
embedding is a pure function, so absence of failure and of mutation of the
key hold by construction.) -/
theorem jhash_pure_deterministic_total (k k' : Nat → Nat) (length initval : Nat)
    (h : ∀ n, k n = k' n) :
    jhash k length initval = jhash k' length initval
    ∧ jhash k length initval < M := by
  constructor
  · have hk : k = k' := funext h
    rw [hk]
  · exact jhash_lt k length initval

/-- Witness for C8. -/
theorem jhash_pure_deterministic_total_witness :
    jhash (fun n => n % 7) 3 5 = jhash (fun n => n % 7) 3 5
    ∧ jhash (fun n => n % 7) 3 5 < M :=
  jhash_pure_deterministic_total (fun n => n % 7) (fun n => n % 7) 3 5 (fun _ => rfl)

/-- Claim C9: the 3-word mixing transform `__jhash_mix` is reversible: on
the set of triples of 32-bit values it is a bijection (with explicit
inverse `jhash_mix_inv`). -/
theorem jhash_mix_bijective :
    Set.BijOn jhash_mix {s : Nat × Nat × Nat | bounded32 s}
      {s : Nat × Nat × Nat | bounded32 s} := by
  have hinv : Set.InvOn jhash_mix_inv jhash_mix
      {s : Nat × Nat × Nat | bounded32 s} {s : Nat × Nat × Nat | bounded32 s} :=
    ⟨fun s hs => jhash_mix_inv_jhash_mix hs, fun s hs => jhash_mix_jhash_mix_inv hs⟩
  exact hinv.bijOn (fun s hs => ⟨add32_lt _ _, add32_lt _ _, xor32_lt _ _⟩)
    (fun s hs => ⟨add32_lt _ _, add32_lt _ _, sub32_lt _ _⟩)

/-- Claim C10: the hash depends only on the first `length` bytes of the
key buffer: two buffers that agree at every index below `length` hash to
the same value, so bytes at index `length` or beyond never influence the
output. -/
theorem jhash_depends_only_on_first_length_bytes (k1 k2 : Nat → Nat)
    (length initval : Nat) (h : ∀ i, i < length → k1 i = k2 i) :
    jhash k1 length initval = jhash k2 length initval := by
  rw [jhash, jhash]
  have hloop : jhashLoop k1 length 0 ((JHASH_INITVAL + length + initval) % M)
      ((JHASH_INITVAL + length + initval) % M) ((JHASH_INITVAL + length + initval) % M)
      = jhashLoop k2 length 0 ((JHASH_INITVAL + length + initval) % M)
      ((JHASH_INITVAL + length + initval) % M) ((JHASH_INITVAL + length + initval) % M) :=
    jhashLoop_congr length 0 _ _ _ (fun i hi => by simpa using h i hi)
  rw [hloop]
  apply jhashTail_congr
  intro i hi
  apply h
  have hsum := jhashLoop_off k2 length 0 ((JHASH_INITVAL + length + initval) % M)
    ((JHASH_INITVAL + length + initval) % M) ((JHASH_INITVAL + length + initval) % M)
  omega

/-- Witness for C10: two buffers that agree below index 20 and differ
from index 20 on. -/
theorem jhash_depends_only_on_first_length_bytes_witness :
    jhash (fun i => i) 20 7 = jhash (fun i => if i < 20 then i else 5) 20 7 :=
  jhash_depends_only_on_first_length_bytes (fun i => i) (fun i => if i < 20 then i else 5)
    20 7 (by decide)
